import Mathlib

set_option maxHeartbeats 1000000

namespace Cpy

/-- A POSIX path value: whether it is absolute, and its list of segments.
This is the shallow embedding of the path strings manipulated by
src/index.js through the node path module (with the POSIX separator). -/
structure FsPath where
  absolute : Bool
  segs : List String
  deriving DecidableEq, Repr

/-- Split a list of characters on a separator character, as the JS
String.prototype.split does with a one-character separator. -/
def splitCharAux (sep : Char) : List Char → List Char → List String
  | [], acc => [String.mk acc.reverse]
  | c :: rest, acc =>
    if c = sep then String.mk acc.reverse :: splitCharAux sep rest []
    else splitCharAux sep rest (c :: acc)

/-- The slash-separated raw segments of a path string. -/
def strSegs (s : String) : List String := splitCharAux '/' s.data []

/-- node path.isAbsolute on POSIX: the string starts with a slash. -/
def isAbsStr (s : String) : Bool :=
  match s.data with
  | c :: _ => c == '/'
  | [] => false

/-- True for a path segment that path normalization keeps unchanged. -/
def normalSeg (s : String) : Bool := !(s == "" || s == "." || s == "..")

/-- One step of node path normalization over a reversed accumulator:
empty and dot segments vanish, a dot-dot segment pops the previous
segment (or is kept when the path is relative and nothing is left). -/
def normStep (allowUp : Bool) (acc : List String) (seg : String) : List String :=
  if seg = "" ∨ seg = "." then acc
  else if seg = ".." then
    match acc with
    | [] => if allowUp then [".."] else []
    | a :: rest => if a = ".." then seg :: a :: rest else rest
  else seg :: acc

/-- node path normalization of a segment list. -/
def normalizeParts (allowUp : Bool) (segs : List String) : List String :=
  (segs.foldl (normStep allowUp) []).reverse

/-- Parse a raw string into a path, normalizing as node path.normalize. -/
def strToPath (s : String) : FsPath :=
  ⟨isAbsStr s, normalizeParts (!isAbsStr s) (strSegs s)⟩

/-- node path.join restricted to two arguments; a second absolute argument
is spliced in as plain segments, exactly as node treats it. -/
def joinP (a b : FsPath) : FsPath :=
  ⟨a.absolute, normalizeParts (!a.absolute) (a.segs ++ b.segs)⟩

/-- Drop the longest common leading run of two segment lists. -/
def dropCommon : List String → List String → List String × List String
  | x :: xs, y :: ys => if x = y then dropCommon xs ys else (x :: xs, y :: ys)
  | xs, ys => (xs, ys)

/-- node path.relative for two paths resolved against the same root:
walk up out of what remains of the source, then down into the target. -/
def relativeP (f t : FsPath) : FsPath :=
  let p := dropCommon (normalizeParts false f.segs) (normalizeParts false t.segs)
  ⟨false, List.replicate p.1.length ".." ++ p.2⟩

/-- node path.dirname: all but the last segment, no normalization. -/
def dirnameP (p : FsPath) : FsPath := ⟨p.absolute, p.segs.dropLast⟩

/-- node path.basename: the last segment. -/
def basenameP (p : FsPath) : String := p.segs.getLastD ""

/-- node path.extname of a basename string: the substring from the last
dot, unless the name has no dot or only leading dots. -/
def extnameStr (name : String) : String :=
  let parts := splitCharAux '.' name.data []
  if parts.length ≤ 1 then ""
  else if parts.dropLast.all (fun x => x == "") then ""
  else "." ++ parts.getLastD ""

/-- node path.extname of a path. -/
def extnameP (p : FsPath) : String := extnameStr (basenameP p)

def strEndsWith (s suf : String) : Bool :=
  List.isPrefixOf suf.data.reverse s.data.reverse

/-- The second argument of node path.basename: strip a matching,
proper extension suffix from the basename. -/
def stripExtStr (name ext : String) : String :=
  if ext ≠ "" ∧ name ≠ ext ∧ strEndsWith name ext = true then
    String.mk (name.data.take (name.data.length - ext.data.length))
  else name

/-- All segments of the path are plain (normalization-stable) segments. -/
def FsPath.wf (p : FsPath) : Prop := ∀ s ∈ p.segs, normalSeg s = true

instance (p : FsPath) : Decidable p.wf := by
  unfold FsPath.wf; infer_instance

/-- One source pattern as seen by src/index.js. The fields originalPath,
normalizedPath and the outputs hasMagic and matches live in
glob-pattern.js and the globby collaborator, which are outside src/.
Modelled from the spec: glob-pattern.js is not under src/; per the spec,
the pattern exposes its base directory (the longest literal, non-wildcard
path prefix), which the code reads as normalizedPath; hasMagic is the
glob collaborator judgement on the pattern text, and getMatches is the
ordered list of absolute matched paths returned by resolution. -/
structure GlobPattern where
  originalPath : String
  hasMagic : Bool
  normalizedPath : FsPath
  getMatches : List FsPath
  deriving DecidableEq, Repr

/-- The Entry class of src/index.js. The constructor only swaps the
separator (the identity on POSIX), so path and relativePath are stored
as given; derived name accessors are defined below. -/
structure Entry where
  path : FsPath
  relativePath : FsPath
  pattern : GlobPattern
  deriving DecidableEq, Repr

/-- Entry.name: basename(this.path). -/
def Entry.name (e : Entry) : String := basenameP e.path

/-- Entry.nameWithoutExtension: basename(this.path, extname(this.path)). -/
def Entry.nameWithoutExtension (e : Entry) : String :=
  stripExtStr (basenameP e.path) (extnameP e.path)

/-- Entry.extension: extname(this.path).slice(1). -/
def Entry.extension (e : Entry) : String :=
  String.mk ((extnameP e.path).data.drop 1)

/-- The rename option: absent, a static string, or a function on the
extension-stripped filename. -/
inductive Rename where
  | none
  | str (s : String)
  | fn (f : String → String)

/-- The options record of src/index.js after merging with the defaults. -/
structure Options where
  concurrency : Nat
  ignoreJunk : Bool
  flat : Bool
  cwd : FsPath
  overwrite : Bool
  filter : Option (Entry → Bool)
  rename : Rename

/-- renameFile from src/index.js: recompute only the filename component,
leaving the dirname in place, following the rename option. -/
def renameFile (path : FsPath) (rename : Rename) : FsPath :=
  let filename := stripExtStr (basenameP path) (extnameP path)
  let ext := extnameP path
  let dir := dirnameP path
  match rename with
  | .str s => joinP dir (strToPath s)
  | .fn f => joinP dir (strToPath (f filename ++ ext))
  | .none => path

/-- preprocessDestinationPath from src/index.js: the three destination
policies (wildcard flat, wildcard structured, literal). -/
def preprocessDestinationPath (entry : Entry) (destination : FsPath)
    (options : Options) : FsPath :=
  if entry.pattern.hasMagic then
    if options.flat then
      if destination.absolute then joinP destination (strToPath entry.name)
      else joinP (joinP options.cwd destination) (strToPath entry.name)
    else
      joinP destination (relativeP entry.pattern.normalizedPath entry.path)
  else if destination.absolute then joinP destination (strToPath entry.name)
  else joinP (joinP options.cwd destination) (relativeP options.cwd entry.path)

/-- The CopyStatus record stored per source path by the progress code.
The percent reported by the copy collaborator is a number in 0..1; the
handler only compares it for equality, order and against 1, so it is
embedded as a rational. -/
structure CopyStatus where
  written : Nat
  percent : ℚ
  deriving DecidableEq, Repr

/-- One raw progress event from the byte-copy collaborator. -/
structure Tick where
  src : FsPath
  written : Nat
  percent : ℚ
  deriving DecidableEq, Repr

/-- The status recorded for a tick. -/
def Tick.status (t : Tick) : CopyStatus := ⟨t.written, t.percent⟩

/-- The emitted aggregate progress snapshot. -/
structure AggregateProgress where
  totalFiles : Nat
  percent : ℚ
  completedFiles : Nat
  completedSize : Int
  deriving DecidableEq, Repr

/-- The mutable state captured by the fileProgressHandler closure:
the copyStatus map and the completedFiles and completedSize counters. -/
structure ProgressState where
  copyStatus : List (FsPath × CopyStatus)
  completedFiles : Nat
  completedSize : Int
  deriving DecidableEq, Repr

def initialProgress : ProgressState := ⟨[], 0, 0⟩

/-- JS Map.prototype.get on an insertion-ordered association list. -/
def mapGet : List (FsPath × CopyStatus) → FsPath → Option CopyStatus
  | [], _ => none
  | (k2, v) :: rest, k => if k2 = k then some v else mapGet rest k

/-- JS Map.prototype.set: replace in place, or append a new key. -/
def mapSet : List (FsPath × CopyStatus) → FsPath → CopyStatus →
    List (FsPath × CopyStatus)
  | [], k, v => [(k, v)]
  | (k2, v2) :: rest, k, v =>
    if k2 = k then (k, v) :: rest else (k2, v2) :: mapSet rest k v

/-- The recorded status of a source path, with the default used by the
handler for unseen paths. -/
def getStatus (st : ProgressState) (f : FsPath) : CopyStatus :=
  (mapGet st.copyStatus f).getD ⟨0, 0⟩

/-- fileProgressHandler from src/index.js, as one step of a state
machine: given the recorded state and one raw event, produce the next
state and the emitted snapshot, if any. -/
def fileProgressHandler (totalFiles : Nat) (st : ProgressState) (event : Tick) :
    ProgressState × Option AggregateProgress :=
  let fileStatus := (mapGet st.copyStatus event.src).getD ⟨0, 0⟩
  if fileStatus.written ≠ event.written ∨ fileStatus.percent ≠ event.percent then
    let completedSize := st.completedSize - fileStatus.written + event.written
    let completedFiles :=
      if event.percent = 1 ∧ fileStatus.percent ≠ 1 then st.completedFiles + 1
      else st.completedFiles
    let st2 : ProgressState :=
      ⟨mapSet st.copyStatus event.src ⟨event.written, event.percent⟩,
        completedFiles, completedSize⟩
    (st2, some ⟨totalFiles, (completedFiles : ℚ) / (totalFiles : ℚ),
      completedFiles, completedSize⟩)
  else (st, none)

/-- Feed a whole sequence of raw events through fileProgressHandler,
collecting the emitted snapshots in order. -/
def runProgress (totalFiles : Nat) (st : ProgressState) :
    List Tick → ProgressState × List AggregateProgress
  | [] => (st, [])
  | t :: rest =>
    let step := fileProgressHandler totalFiles st t
    let next := runProgress totalFiles step.1 rest
    (next.1, step.2.toList ++ next.2)

/-- The error cases of src/index.js reachable in this model. The code
raises one CpyError class distinguished by message; missingArgument is
the missing source or destination message, sourceNotFound is the
"the file doesn't exist" message for a literal pattern with no matches.
Glob engine failures and byte-copy failures come from collaborators that
always succeed in this model. copyIncomplete is a modelling artifact for
a completion schedule that does not finish every copy task; the real
concurrency primitive completes every task, so valid schedules are
permutations of the task indices. -/
inductive CpyError where
  | missingArgument
  | sourceNotFound (pattern : String)
  | copyIncomplete
  deriving DecidableEq, Repr

/-- The per-pattern resolution loop of cpy: a literal pattern with no
matches is a fatal sourceNotFound error; otherwise each matched path
becomes an Entry carrying its path relative to cwd and its pattern, and
entry blocks are concatenated in pattern order. -/
def collectEntries (cwd : FsPath) : List GlobPattern → Except CpyError (List Entry)
  | [] => .ok []
  | p :: rest =>
    if p.getMatches = [] ∧ p.hasMagic = false then
      .error (.sourceNotFound p.originalPath)
    else
      match collectEntries cwd rest with
      | .error e => .error e
      | .ok tail =>
        .ok ((p.getMatches.map fun m => Entry.mk m (relativeP cwd m) p) ++ tail)

/-- The destination of one entry: preprocessDestinationPath then the
rename transform, as in the pMap body of cpy. -/
def entryDestination (destination : FsPath) (options : Options) (e : Entry) :
    FsPath :=
  renameFile (preprocessDestinationPath e destination options) options.rename

/-- The pFilter collaborator: an order-preserving filter by the
configured predicate, applied only when a filter is configured. -/
def applyFilter (filter : Option (Entry → Bool)) (entries : List Entry) :
    List Entry :=
  match filter with
  | some keep => entries.filter keep
  | none => entries

/-- The result-collection discipline of the pMap collaborator: copy tasks
complete in an arbitrary schedule order, but each task writes its result
at its own input index. The schedule is the order in which copies finish. -/
def pMapRun (f : Entry → FsPath) (entries : List Entry) (schedule : List Nat) :
    List (Option FsPath) :=
  schedule.foldl (fun arr i => arr.set i ((entries[i]?).map f))
    (List.replicate entries.length none)

/-- Collect a fully-filled result array. -/
def collectResults : List (Option FsPath) → Option (List FsPath)
  | [] => some []
  | some a :: rest => (collectResults rest).map (a :: ·)
  | none :: _ => none

/-- The cpy orchestration of src/index.js over one operation, with the
collaborator outputs embedded in its inputs: each GlobPattern carries the
glob results, ticks is the stream of raw progress events delivered by the
byte-copy collaborator during the copy phase, and schedule is the order
in which the concurrent copies complete. It returns the resolved list of
destination paths together with the emitted progress snapshots, in order.
All byte copies succeed in this model (the copy primitive is an external
collaborator), so the CopyFailure wrapping branch is unreachable. -/
def cpy (source : List GlobPattern) (destination : FsPath) (options : Options)
    (ticks : List Tick) (schedule : List Nat) :
    Except CpyError (List FsPath × List AggregateProgress) :=
  if source = [] ∨ (destination.absolute = false ∧ destination.segs = []) then
    .error .missingArgument
  else
    match collectEntries options.cwd source with
    | .error e => .error e
    | .ok collected =>
      let entries := applyFilter options.filter collected
      let preEvents : List AggregateProgress :=
        if entries = [] then [⟨0, 1, 0, 0⟩] else []
      let tickEvents := (runProgress entries.length initialProgress ticks).2
      match collectResults
          (pMapRun (entryDestination destination options) entries schedule) with
      | some paths => .ok (paths, preEvents ++ tickEvents)
      | none => .error .copyIncomplete

/-- Normalization keeps a plain segment. -/
lemma normStep_normal (b : Bool) (acc : List String) {s : String}
    (h : normalSeg s = true) : normStep b acc s = s :: acc := by
  simp only [normalSeg, Bool.not_eq_true', Bool.or_eq_false_iff, beq_eq_false_iff_ne,
    ne_eq] at h
  obtain ⟨⟨h1, h2⟩, h3⟩ := h
  simp [normStep, h1, h2, h3]

lemma foldl_normStep (b : Bool) {l : List String}
    (h : ∀ s ∈ l, normalSeg s = true) :
    ∀ acc, l.foldl (normStep b) acc = l.reverse ++ acc := by
  induction l with
  | nil => simp
  | cons a l ih =>
    intro acc
    rw [List.foldl_cons, normStep_normal b acc (h a (by simp)),
      ih (fun s hs => h s (by simp [hs])) (a :: acc)]
    simp

/-- Normalization fixes a list of plain segments. -/
lemma normalizeParts_wf (b : Bool) {l : List String}
    (h : ∀ s ∈ l, normalSeg s = true) : normalizeParts b l = l := by
  unfold normalizeParts
  rw [foldl_normStep b h []]
  simp

/-- Joining a path of plain segments with plain extra segments is plain
concatenation. -/
lemma joinP_wf {a : FsPath} {bs : List String} {x : Bool}
    (ha : a.wf) (hb : ∀ s ∈ bs, normalSeg s = true) :
    joinP a ⟨x, bs⟩ = ⟨a.absolute, a.segs ++ bs⟩ := by
  unfold joinP
  have : ∀ s ∈ a.segs ++ bs, normalSeg s = true := by
    intro s hs
    rcases List.mem_append.1 hs with h | h
    · exact ha s h
    · exact hb s h
  rw [normalizeParts_wf _ this]

lemma dropCommon_append : ∀ (l m : List String), dropCommon l (l ++ m) = ([], m)
  | [], m => by cases m <;> rfl
  | a :: l, m => by
    simp [dropCommon, dropCommon_append l m]

/-- The relative path from a plain path to a plain extension of it is the
added suffix. -/
lemma relativeP_append {f t : FsPath} {rest : List String}
    (hf : f.wf) (hr : ∀ s ∈ rest, normalSeg s = true)
    (ht : t.segs = f.segs ++ rest) :
    relativeP f t = ⟨false, rest⟩ := by
  unfold relativeP
  rw [ht, normalizeParts_wf false hf,
    normalizeParts_wf false (by
      intro s hs
      rcases List.mem_append.1 hs with h | h
      · exact hf s h
      · exact hr s h),
    dropCommon_append]
  simp

/-- Every segment of a plain path extended by plain segments is plain. -/
lemma wf_append {a : FsPath} {bs : List String} {x : Bool}
    (ha : a.wf) (hb : ∀ s ∈ bs, normalSeg s = true) :
    FsPath.wf ⟨x, a.segs ++ bs⟩ := by
  intro s hs
  rcases List.mem_append.1 hs with h | h
  · exact ha s h
  · exact hb s h

/-- C1: with a wildcarded pattern and flat mode off, the resolved
destination is join(destination, relative(baseDirectory, sourcePath)),
and therefore the relative path of the output under the destination
equals the relative path of the matched source under the pattern base
directory. The baseDirectory (exposed in the code as
pattern.normalizedPath) is modelled from the spec as a field of the
pattern, glob-pattern.js being outside src/. -/
theorem C1_structured_destination (e : Entry) (destination : FsPath)
    (options : Options) (rest : List String)
    (hm : e.pattern.hasMagic = true) (hf : options.flat = false)
    (hdw : destination.wf) (hbw : e.pattern.normalizedPath.wf)
    (hpw : e.path.wf)
    (hpre : e.path.segs = e.pattern.normalizedPath.segs ++ rest) :
    preprocessDestinationPath e destination options =
      joinP destination (relativeP e.pattern.normalizedPath e.path) ∧
    relativeP destination (preprocessDestinationPath e destination options) =
      relativeP e.pattern.normalizedPath e.path := by
  have hrest : ∀ s ∈ rest, normalSeg s = true := by
    intro s hs
    exact hpw s (by rw [hpre]; exact List.mem_append.2 (Or.inr hs))
  have hcode : preprocessDestinationPath e destination options =
      joinP destination (relativeP e.pattern.normalizedPath e.path) := by
    simp [preprocessDestinationPath, hm, hf]
  have hrel : relativeP e.pattern.normalizedPath e.path = ⟨false, rest⟩ :=
    relativeP_append hbw hrest hpre
  refine ⟨hcode, ?_⟩
  rw [hcode, hrel, joinP_wf hdw hrest,
    relativeP_append hdw hrest rfl]

/-- C1 witness: pattern src/**, base directory /w/src, source
/w/src/a/b.txt, destination /dest. -/
theorem C1_structured_destination_witness :
    preprocessDestinationPath
        ⟨⟨true, ["w", "src", "a", "b.txt"]⟩, ⟨false, ["src", "a", "b.txt"]⟩,
          ⟨"src/**", true, ⟨true, ["w", "src"]⟩, [⟨true, ["w", "src", "a", "b.txt"]⟩]⟩⟩
        ⟨true, ["dest"]⟩
        ⟨1, true, false, ⟨true, ["w"]⟩, false, none, .none⟩ =
      joinP ⟨true, ["dest"]⟩
        (relativeP ⟨true, ["w", "src"]⟩ ⟨true, ["w", "src", "a", "b.txt"]⟩) ∧
    relativeP ⟨true, ["dest"]⟩
        (preprocessDestinationPath
          ⟨⟨true, ["w", "src", "a", "b.txt"]⟩, ⟨false, ["src", "a", "b.txt"]⟩,
            ⟨"src/**", true, ⟨true, ["w", "src"]⟩, [⟨true, ["w", "src", "a", "b.txt"]⟩]⟩⟩
          ⟨true, ["dest"]⟩
          ⟨1, true, false, ⟨true, ["w"]⟩, false, none, .none⟩) =
      relativeP ⟨true, ["w", "src"]⟩ ⟨true, ["w", "src", "a", "b.txt"]⟩ :=
  C1_structured_destination _ _ _ ["a", "b.txt"] rfl rfl
    (by decide) (by decide) (by decide) rfl

/-- destinationRoot as the spec words it: the destination as given when
it is absolute, join(cwd, destination) otherwise. -/
def destinationRoot (destination cwd : FsPath) : FsPath :=
  if destination.absolute then destination else joinP cwd destination

lemma destinationRoot_wf {destination cwd : FsPath}
    (hd : destination.wf) (hc : cwd.wf) : (destinationRoot destination cwd).wf := by
  unfold destinationRoot
  split
  · exact hd
  · rw [show destination = ⟨destination.absolute, destination.segs⟩ from rfl,
      joinP_wf hc hd]
    exact wf_append hc hd

lemma destinationRoot_absolute {destination cwd : FsPath} :
    (destinationRoot destination cwd).absolute =
      (destination.absolute || cwd.absolute) := by
  unfold destinationRoot joinP
  cases h : destination.absolute <;> simp [h]

/-- C5: with a wildcarded pattern and flat mode on, the resolved
destination is join(destinationRoot, entry.name), and the directory of
every output equals the destination root, regardless of how deeply the
source is nested. -/
theorem C5_flat_destination (e : Entry) (destination : FsPath)
    (options : Options)
    (hm : e.pattern.hasMagic = true) (hf : options.flat = true)
    (hname : strToPath e.name = ⟨false, [e.name]⟩)
    (hnn : normalSeg e.name = true)
    (hdw : destination.wf) (hcw : options.cwd.wf) :
    preprocessDestinationPath e destination options =
      joinP (destinationRoot destination options.cwd) (strToPath e.name) ∧
    dirnameP (preprocessDestinationPath e destination options) =
      destinationRoot destination options.cwd := by
  have hcode : preprocessDestinationPath e destination options =
      joinP (destinationRoot destination options.cwd) (strToPath e.name) := by
    unfold preprocessDestinationPath destinationRoot
    cases h : destination.absolute <;> simp [hm, hf, h]
  refine ⟨hcode, ?_⟩
  have hrw : (destinationRoot destination options.cwd).wf :=
    destinationRoot_wf hdw hcw
  rw [hcode, hname, joinP_wf hrw (by simp [hnn]), dirnameP,
    List.dropLast_concat]

/-- C5 witness: pattern src/**, source /w/src/a/deep/x.md, cwd /w,
relative destination out; the output lands directly in /w/out. -/
theorem C5_flat_destination_witness :
    preprocessDestinationPath
        ⟨⟨true, ["w", "src", "a", "deep", "x.md"]⟩,
          ⟨false, ["src", "a", "deep", "x.md"]⟩,
          ⟨"src/**", true, ⟨true, ["w", "src"]⟩, []⟩⟩
        ⟨false, ["out"]⟩
        ⟨1, true, true, ⟨true, ["w"]⟩, false, none, .none⟩ =
      joinP (destinationRoot ⟨false, ["out"]⟩ ⟨true, ["w"]⟩)
        (strToPath "x.md") ∧
    dirnameP
        (preprocessDestinationPath
          ⟨⟨true, ["w", "src", "a", "deep", "x.md"]⟩,
            ⟨false, ["src", "a", "deep", "x.md"]⟩,
            ⟨"src/**", true, ⟨true, ["w", "src"]⟩, []⟩⟩
          ⟨false, ["out"]⟩
          ⟨1, true, true, ⟨true, ["w"]⟩, false, none, .none⟩) =
      destinationRoot ⟨false, ["out"]⟩ ⟨true, ["w"]⟩ :=
  C5_flat_destination _ _ _ rfl rfl (by decide) (by decide)
    (by decide) (by decide)

/-- C6: for a literal (non-wildcarded) pattern the resolved destination
is join(destination, entry.name) when the destination is absolute, and
join(cwd, destination, relative(cwd, sourcePath)) otherwise; and in the
relative case the output seen relative to cwd is the destination followed
by the source path relative to cwd. -/
theorem C6_literal_destination (e : Entry) (destination : FsPath)
    (options : Options) (hm : e.pattern.hasMagic = false) :
    preprocessDestinationPath e destination options =
      (if destination.absolute then joinP destination (strToPath e.name)
        else joinP (joinP options.cwd destination)
          (relativeP options.cwd e.path)) ∧
    (destination.absolute = false → options.cwd.wf → destination.wf →
      (∀ rest, e.path.segs = options.cwd.segs ++ rest →
        (∀ s ∈ rest, normalSeg s = true) →
        relativeP options.cwd (preprocessDestinationPath e destination options) =
          joinP destination (relativeP options.cwd e.path))) := by
  have hcode : preprocessDestinationPath e destination options =
      (if destination.absolute then joinP destination (strToPath e.name)
        else joinP (joinP options.cwd destination)
          (relativeP options.cwd e.path)) := by
    unfold preprocessDestinationPath
    cases h : destination.absolute <;> simp [hm, h]
  refine ⟨hcode, ?_⟩
  intro habs hcw hdw rest hpre hrest
  have hrel : relativeP options.cwd e.path = ⟨false, rest⟩ :=
    relativeP_append hcw hrest hpre
  have hinner : joinP options.cwd destination =
      ⟨options.cwd.absolute, options.cwd.segs ++ destination.segs⟩ := by
    rw [show destination = ⟨destination.absolute, destination.segs⟩ from rfl,
      joinP_wf hcw hdw]
  rw [hcode, if_neg (by simp [habs]), hrel, hinner,
    joinP_wf (wf_append hcw hdw) hrest,
    show destination = ⟨destination.absolute, destination.segs⟩ from rfl,
    joinP_wf hdw hrest]
  rw [List.append_assoc]
  rw [relativeP_append hcw (by
    intro s hs
    rcases List.mem_append.1 hs with h | h
    · exact hdw s h
    · exact hrest s h) rfl]
  simp [habs]

/-- C6 witness: the end-to-end scenario of the spec with cwd /w, literal
sources a.txt and sub/b.txt and destination out; the outputs are
/w/out/a.txt and /w/out/sub/b.txt, that is out/a.txt and out/sub/b.txt
relative to cwd. -/
theorem C6_literal_destination_witness :
    relativeP ⟨true, ["w"]⟩
        (preprocessDestinationPath
          ⟨⟨true, ["w", "a.txt"]⟩, ⟨false, ["a.txt"]⟩,
            ⟨"a.txt", false, ⟨true, ["w"]⟩, [⟨true, ["w", "a.txt"]⟩]⟩⟩
          ⟨false, ["out"]⟩
          ⟨1, true, false, ⟨true, ["w"]⟩, false, none, .none⟩) =
      strToPath "out/a.txt" ∧
    relativeP ⟨true, ["w"]⟩
        (preprocessDestinationPath
          ⟨⟨true, ["w", "sub", "b.txt"]⟩, ⟨false, ["sub", "b.txt"]⟩,
            ⟨"sub/b.txt", false, ⟨true, ["w"]⟩, [⟨true, ["w", "sub", "b.txt"]⟩]⟩⟩
          ⟨false, ["out"]⟩
          ⟨1, true, false, ⟨true, ["w"]⟩, false, none, .none⟩) =
      strToPath "out/sub/b.txt" := by
  constructor
  · have h := C6_literal_destination
      ⟨⟨true, ["w", "a.txt"]⟩, ⟨false, ["a.txt"]⟩,
        ⟨"a.txt", false, ⟨true, ["w"]⟩, [⟨true, ["w", "a.txt"]⟩]⟩⟩
      ⟨false, ["out"]⟩
      ⟨1, true, false, ⟨true, ["w"]⟩, false, none, .none⟩ rfl
    rw [h.2 rfl (by decide) (by decide) ["a.txt"] rfl (by decide)]
    decide
  · have h := C6_literal_destination
      ⟨⟨true, ["w", "sub", "b.txt"]⟩, ⟨false, ["sub", "b.txt"]⟩,
        ⟨"sub/b.txt", false, ⟨true, ["w"]⟩, [⟨true, ["w", "sub", "b.txt"]⟩]⟩⟩
      ⟨false, ["out"]⟩
      ⟨1, true, false, ⟨true, ["w"]⟩, false, none, .none⟩ rfl
    rw [h.2 rfl (by decide) (by decide) ["sub", "b.txt"] rfl (by decide)]
    decide

/-- A string that joining treats as one plain filename segment. -/
def plainName (s : String) : Prop :=
  strToPath s = ⟨false, [s]⟩ ∧ normalSeg s = true

instance (s : String) : Decidable (plainName s) := by
  unfold plainName; infer_instance

/-- The value the rename option contributes as the new filename is one
plain segment: the static string itself, or the function result with the
original extension re-attached. -/
def renameSpecPlain (path : FsPath) : Rename → Prop
  | .none => True
  | .str s => plainName s
  | .fn f =>
    plainName (f (stripExtStr (basenameP path) (extnameP path)) ++ extnameP path)

instance (p : FsPath) : (r : Rename) → Decidable (renameSpecPlain p r)
  | .none => .isTrue trivial
  | .str s => inferInstanceAs (Decidable (plainName s))
  | .fn _ => inferInstanceAs (Decidable (plainName _))

/-- C2 counterexample: the claim quantifies over every rename spec and
every path, but a rename value containing a path separator moves the file
into a subdirectory: renaming d/f.txt with the static string sub/x.txt
(or with a function returning sub/x) produces d/sub/x.txt, whose
directory d/sub differs from d. -/
theorem C2_rename_counterexample :
    dirnameP (renameFile (strToPath "d/f.txt") (.str "sub/x.txt")) ≠
      dirnameP (strToPath "d/f.txt") ∧
    dirnameP (renameFile (strToPath "d/f.txt") (.fn (fun _ => "sub/x"))) ≠
      dirnameP (strToPath "d/f.txt") := by
  exact ⟨by decide, by decide⟩

/-- C2 amended: the rename transform changes only the filename component
whenever the rename value is a plain filename segment, with no separator
and no special segment, over any path whose directory segments are
normalization-stable, as every destination produced by the resolver is. -/
theorem C2_rename_preserves_directory (path : FsPath) (r : Rename)
    (hd : ∀ s ∈ path.segs.dropLast, normalSeg s = true)
    (hr : renameSpecPlain path r) :
    dirnameP (renameFile path r) = dirnameP path := by
  have hdir : (dirnameP path).wf := hd
  cases r with
  | none => rfl
  | str s =>
    obtain ⟨h1, h2⟩ := hr
    show dirnameP (joinP (dirnameP path) (strToPath s)) = dirnameP path
    rw [h1, joinP_wf hdir (by simp [h2]), dirnameP]
    simp [dirnameP, List.dropLast_concat]
  | fn f =>
    obtain ⟨h1, h2⟩ := hr
    show dirnameP (joinP (dirnameP path)
      (strToPath (f (stripExtStr (basenameP path) (extnameP path)) ++
        extnameP path))) = dirnameP path
    rw [h1, joinP_wf hdir (by simp [h2]), dirnameP]
    simp [dirnameP, List.dropLast_concat]

/-- C2 witness: static rename x.txt of d/f.txt gives d/x.txt, and a
function rename appending a suffix before the extension gives
d/f_copy.txt; both keep the directory d. -/
theorem C2_rename_preserves_directory_witness :
    dirnameP (renameFile (FsPath.mk false ["d", "f.txt"]) (.str "x.txt")) =
      dirnameP (FsPath.mk false ["d", "f.txt"]) ∧
    dirnameP (renameFile (FsPath.mk false ["d", "f.txt"])
        (.fn (fun n => n ++ "_copy"))) =
      dirnameP (FsPath.mk false ["d", "f.txt"]) :=
  ⟨C2_rename_preserves_directory _ _ (by decide) (by decide),
    C2_rename_preserves_directory _ _ (by decide) (by decide)⟩

/-- The handler condition is inequality with the whole tick status. -/
lemma statusCond_iff (a : CopyStatus) (t : Tick) :
    (a.written ≠ t.written ∨ a.percent ≠ t.percent) ↔ a ≠ t.status := by
  constructor
  · rintro (h | h) he <;> rw [he] at h <;> simp [Tick.status] at h
  · intro h
    by_contra hc
    push_neg at hc
    apply h
    cases a
    simp only [Tick.status]
    simp_all

/-- A tick matching the recorded status is a no-op with no emission. -/
lemma handler_noop {tf : Nat} {st : ProgressState} {t : Tick}
    (h : getStatus st t.src = t.status) :
    fileProgressHandler tf st t = (st, none) := by
  unfold fileProgressHandler
  rw [if_neg]
  rw [not_or]
  unfold getStatus at h
  rw [h]
  simp [Tick.status]

/-- A tick differing from the recorded status updates state and emits
the snapshot of the updated state. -/
lemma handler_change {tf : Nat} {st : ProgressState} {t : Tick}
    (h : getStatus st t.src ≠ t.status) :
    fileProgressHandler tf st t =
      (⟨mapSet st.copyStatus t.src t.status,
        (if t.percent = 1 ∧ (getStatus st t.src).percent ≠ 1 then
          st.completedFiles + 1 else st.completedFiles),
        st.completedSize - (getStatus st t.src).written + t.written⟩,
      some ⟨tf,
        (((if t.percent = 1 ∧ (getStatus st t.src).percent ≠ 1 then
          st.completedFiles + 1 else st.completedFiles) : ℕ) : ℚ) / (tf : ℚ),
        (if t.percent = 1 ∧ (getStatus st t.src).percent ≠ 1 then
          st.completedFiles + 1 else st.completedFiles),
        st.completedSize - (getStatus st t.src).written + t.written⟩) := by
  unfold fileProgressHandler
  rw [if_pos]
  · rfl
  · rw [statusCond_iff]
    exact h

lemma mapGet_mapSet (m : List (FsPath × CopyStatus)) (k : FsPath)
    (v : CopyStatus) (k2 : FsPath) :
    mapGet (mapSet m k v) k2 = if k = k2 then some v else mapGet m k2 := by
  induction m with
  | nil => simp [mapSet, mapGet]
  | cons kv rest ih =>
    obtain ⟨k1, v1⟩ := kv
    by_cases h : k1 = k
    · subst h
      simp only [mapSet, if_pos rfl, mapGet]
      by_cases h2 : k1 = k2
      · simp [h2]
      · simp [h2]
    · simp only [mapSet, if_neg h, mapGet]
      rw [ih]
      by_cases h2 : k1 = k2
      · rw [if_pos h2, if_neg (by rw [← h2]; exact fun hk => h hk.symm),
          if_pos h2]
      · rw [if_neg h2, if_neg h2]

/-- After one handler step, the recorded status of the tick source is the
tick value, and every other source keeps its recorded status. -/
lemma handler_getStatus (tf : Nat) (st : ProgressState) (t : Tick)
    (f : FsPath) :
    getStatus (fileProgressHandler tf st t).1 f =
      if t.src = f then t.status else getStatus st f := by
  by_cases h : getStatus st t.src = t.status
  · rw [handler_noop h]
    by_cases h2 : t.src = f
    · rw [if_pos h2, ← h2, h]
    · rw [if_neg h2]
  · rw [handler_change h]
    unfold getStatus
    show (mapGet (mapSet st.copyStatus t.src t.status) f).getD ⟨0, 0⟩ = _
    rw [mapGet_mapSet]
    by_cases h2 : t.src = f <;> simp [h2, getStatus]

/-- C7: delivering a tick equal to the last recorded value for its source
emits no snapshot and leaves the whole aggregator state unchanged, and
ingesting any tick twice is the same as ingesting it once. -/
theorem C7_idempotent_tick (tf : Nat) (st : ProgressState) (t t2 : Tick)
    (h : (mapGet st.copyStatus t.src).getD ⟨0, 0⟩ = ⟨t.written, t.percent⟩) :
    fileProgressHandler tf st t = (st, none) ∧
    fileProgressHandler tf (fileProgressHandler tf st t2).1 t2 =
      ((fileProgressHandler tf st t2).1, none) := by
  constructor
  · exact handler_noop h
  · apply handler_noop
    rw [handler_getStatus, if_pos rfl]

/-- C7 witness: with a recorded status (5, 1/2) for /w/a, re-delivering
the identical tick is a silent no-op, and a fresh tick for /w/b ingested
twice equals once. -/
theorem C7_idempotent_tick_witness :
    fileProgressHandler 2
        ⟨[(⟨true, ["w", "a"]⟩, ⟨5, 1 / 2⟩)], 0, 5⟩
        ⟨⟨true, ["w", "a"]⟩, 5, 1 / 2⟩ =
      (⟨[(⟨true, ["w", "a"]⟩, ⟨5, 1 / 2⟩)], 0, 5⟩, none) ∧
    fileProgressHandler 2
        (fileProgressHandler 2 ⟨[(⟨true, ["w", "a"]⟩, ⟨5, 1 / 2⟩)], 0, 5⟩
          ⟨⟨true, ["w", "b"]⟩, 3, 1⟩).1
        ⟨⟨true, ["w", "b"]⟩, 3, 1⟩ =
      ((fileProgressHandler 2 ⟨[(⟨true, ["w", "a"]⟩, ⟨5, 1 / 2⟩)], 0, 5⟩
        ⟨⟨true, ["w", "b"]⟩, 3, 1⟩).1, none) :=
  C7_idempotent_tick 2 ⟨[(⟨true, ["w", "a"]⟩, ⟨5, 1 / 2⟩)], 0, 5⟩
    ⟨⟨true, ["w", "a"]⟩, 5, 1 / 2⟩ ⟨⟨true, ["w", "b"]⟩, 3, 1⟩ rfl

/-- C10: the default status assumed for a source path not yet in the
copyStatus map is written 0 and percent 0, so a first tick carrying
written 0 and percent 0 is a silent no-op. -/
theorem C10_first_zero_tick (tf : Nat) (st : ProgressState) (t : Tick)
    (habsent : mapGet st.copyStatus t.src = none)
    (hw : t.written = 0) (hp : t.percent = 0) :
    fileProgressHandler tf st t = (st, none) := by
  apply handler_noop
  unfold getStatus
  rw [habsent, Tick.status, hw, hp]
  rfl

/-- C10 witness: the first (0, 0) tick for an unseen path emits nothing
and changes nothing. -/
theorem C10_first_zero_tick_witness :
    fileProgressHandler 2 ⟨[(⟨true, ["w", "a"]⟩, ⟨5, 1 / 2⟩)], 0, 5⟩
        ⟨⟨true, ["w", "b"]⟩, 0, 0⟩ =
      (⟨[(⟨true, ["w", "a"]⟩, ⟨5, 1 / 2⟩)], 0, 5⟩, none) :=
  C10_first_zero_tick 2 _ _ rfl rfl rfl

/-- Componentwise order on per-file statuses: a later raw tick for one
file reports at least as many written bytes and at least the percent. -/
def statusLE (a b : CopyStatus) : Prop :=
  a.written ≤ b.written ∧ a.percent ≤ b.percent

instance (a b : CopyStatus) : Decidable (statusLE a b) :=
  inferInstanceAs (Decidable (_ ∧ _))

lemma statusLE_refl (a : CopyStatus) : statusLE a a := ⟨le_refl _, le_refl _⟩

lemma statusLE_trans {a b c : CopyStatus} (h1 : statusLE a b)
    (h2 : statusLE b c) : statusLE a c :=
  ⟨le_trans h1.1 h2.1, le_trans h1.2 h2.2⟩

/-- The subsequence of raw ticks belonging to one source path. -/
def ticksFor (ts : List Tick) (f : FsPath) : List Tick :=
  ts.filter (fun t => t.src == f)

lemma ticksFor_cons_self {t : Tick} {rest : List Tick} {f : FsPath}
    (h : t.src = f) : ticksFor (t :: rest) f = t :: ticksFor rest f := by
  unfold ticksFor
  rw [List.filter_cons, if_pos (by simp [h])]

lemma ticksFor_cons_other {t : Tick} {rest : List Tick} {f : FsPath}
    (h : t.src ≠ f) : ticksFor (t :: rest) f = ticksFor rest f := by
  unfold ticksFor
  rw [List.filter_cons, if_neg (by simp [h])]

/-- The recorded status of every file is a lower bound for the chain of
ticks still to arrive for it. -/
def Compat (st : ProgressState) (ts : List Tick) : Prop :=
  ∀ f, List.Chain' statusLE (getStatus st f :: (ticksFor ts f).map Tick.status)

lemma compat_head {st : ProgressState} {t : Tick} {rest : List Tick}
    (h : Compat st (t :: rest)) : statusLE (getStatus st t.src) t.status := by
  have hc := h t.src
  rw [ticksFor_cons_self rfl] at hc
  exact (List.chain'_cons.1 hc).1

lemma compat_step {tf : Nat} {st : ProgressState} {t : Tick} {rest : List Tick}
    (h : Compat st (t :: rest)) :
    Compat (fileProgressHandler tf st t).1 rest := by
  intro f
  rw [handler_getStatus]
  by_cases hf : t.src = f
  · rw [if_pos hf]
    have hc := h f
    rw [ticksFor_cons_self hf] at hc
    exact (List.chain'_cons'.1 hc).2
  · rw [if_neg hf]
    have hc := h f
    rw [ticksFor_cons_other hf] at hc
    exact hc

/-- One step never decreases the two counters. -/
lemma handler_mono {tf : Nat} {st : ProgressState} {t : Tick}
    (hle : statusLE (getStatus st t.src) t.status) :
    st.completedFiles ≤ (fileProgressHandler tf st t).1.completedFiles ∧
    st.completedSize ≤ (fileProgressHandler tf st t).1.completedSize := by
  by_cases h : getStatus st t.src = t.status
  · rw [handler_noop h]
    exact ⟨le_refl _, le_refl _⟩
  · rw [handler_change h]
    constructor
    · dsimp only
      split <;> omega
    · dsimp only
      have hw : (getStatus st t.src).written ≤ t.written := hle.1
      omega

/-- When a step emits a snapshot, the snapshot carries the fields of the
post-step state. -/
lemma handler_emit {tf : Nat} {st : ProgressState} {t : Tick}
    {a : AggregateProgress} (h : (fileProgressHandler tf st t).2 = some a) :
    a.completedFiles = (fileProgressHandler tf st t).1.completedFiles ∧
    a.completedSize = (fileProgressHandler tf st t).1.completedSize ∧
    a.totalFiles = tf ∧
    a.percent = (((fileProgressHandler tf st t).1.completedFiles : ℕ) : ℚ) / (tf : ℚ) := by
  by_cases hc : getStatus st t.src = t.status
  · rw [handler_noop hc] at h
    simp at h
  · rw [handler_change hc] at h
    rw [handler_change hc]
    cases h
    exact ⟨rfl, rfl, rfl, rfl⟩

/-- A silent step leaves the state unchanged. -/
lemma handler_none_state {tf : Nat} {st : ProgressState} {t : Tick}
    (h : (fileProgressHandler tf st t).2 = none) :
    (fileProgressHandler tf st t).1 = st := by
  by_cases hc : getStatus st t.src = t.status
  · rw [handler_noop hc]
  · rw [handler_change hc] at h
    simp at h

lemma mapSet_mem {m : List (FsPath × CopyStatus)} {k : FsPath}
    {v : CopyStatus} {kv : FsPath × CopyStatus} (h : kv ∈ mapSet m k v) :
    kv ∈ m ∨ kv = (k, v) := by
  induction m with
  | nil =>
    simp [mapSet] at h
    exact Or.inr h
  | cons kv2 rest ih =>
    obtain ⟨k1, v1⟩ := kv2
    by_cases hk : k1 = k
    · rw [show mapSet ((k1, v1) :: rest) k v = (k, v) :: rest by
        simp [mapSet, hk]] at h
      rcases List.mem_cons.1 h with h | h
      · exact Or.inr h
      · exact Or.inl (List.mem_cons.2 (Or.inr h))
    · rw [show mapSet ((k1, v1) :: rest) k v = (k1, v1) :: mapSet rest k v by
        simp [mapSet, hk]] at h
      rcases List.mem_cons.1 h with h | h
      · exact Or.inl (List.mem_cons.2 (Or.inl h))
      · rcases ih h with h | h
        · exact Or.inl (List.mem_cons.2 (Or.inr h))
        · exact Or.inr h

lemma mapGet_none_iff {m : List (FsPath × CopyStatus)} {k : FsPath} :
    mapGet m k = none ↔ k ∉ m.map Prod.fst := by
  induction m with
  | nil => simp [mapGet]
  | cons kv rest ih =>
    obtain ⟨k1, v1⟩ := kv
    by_cases hk : k1 = k
    · simp [mapGet, hk]
    · rw [mapGet, if_neg hk, ih]
      simp only [List.map_cons, List.mem_cons]
      constructor
      · rintro hn (hc | hc)
        · exact hk hc.symm
        · exact hn hc
      · intro hn hc
        exact hn (Or.inr hc)

lemma mapSet_keys_of_some {m : List (FsPath × CopyStatus)} {k : FsPath}
    {v v0 : CopyStatus} (h : mapGet m k = some v0) :
    (mapSet m k v).map Prod.fst = m.map Prod.fst := by
  induction m with
  | nil => simp [mapGet] at h
  | cons kv rest ih =>
    obtain ⟨k1, v1⟩ := kv
    by_cases hk : k1 = k
    · simp [mapSet, hk]
    · rw [mapGet, if_neg hk] at h
      simp [mapSet, hk, ih h]

lemma mapSet_keys_of_none {m : List (FsPath × CopyStatus)} {k : FsPath}
    {v : CopyStatus} (h : mapGet m k = none) :
    (mapSet m k v).map Prod.fst = m.map Prod.fst ++ [k] := by
  induction m with
  | nil => simp [mapSet]
  | cons kv rest ih =>
    obtain ⟨k1, v1⟩ := kv
    rw [mapGet] at h
    by_cases hk : k1 = k
    · rw [if_pos hk] at h
      cases h
    · rw [if_neg hk] at h
      simp [mapSet, hk, ih h]

/-- Updating the first occurrence of a present key shifts the count of a
predicate by the predicate on the old and new stored pairs. -/
lemma countP_mapSet_some {m : List (FsPath × CopyStatus)} {k : FsPath}
    {v v0 : CopyStatus} (p : FsPath × CopyStatus → Bool)
    (h : mapGet m k = some v0) :
    (mapSet m k v).countP p + (if p (k, v0) then 1 else 0) =
      m.countP p + (if p (k, v) then 1 else 0) := by
  induction m with
  | nil => simp [mapGet] at h
  | cons kv rest ih =>
    obtain ⟨k1, v1⟩ := kv
    rw [mapGet] at h
    by_cases hk : k1 = k
    · rw [if_pos hk] at h
      cases h
      subst hk
      rw [show mapSet ((k1, v0) :: rest) k1 v = (k1, v) :: rest by
        simp [mapSet]]
      rw [List.countP_cons, List.countP_cons]
      by_cases h1 : p (k1, v0) <;> by_cases h2 : p (k1, v) <;>
        simp [h1, h2] <;> try omega
    · rw [if_neg hk] at h
      rw [show mapSet ((k1, v1) :: rest) k v = (k1, v1) :: mapSet rest k v by
        simp [mapSet, hk]]
      rw [List.countP_cons, List.countP_cons]
      have := ih h
      omega

lemma countP_mapSet_none {m : List (FsPath × CopyStatus)} {k : FsPath}
    {v : CopyStatus} (p : FsPath × CopyStatus → Bool) (h : mapGet m k = none) :
    (mapSet m k v).countP p = m.countP p + (if p (k, v) then 1 else 0) := by
  induction m with
  | nil => simp [mapSet, List.countP_cons]
  | cons kv rest ih =>
    obtain ⟨k1, v1⟩ := kv
    rw [mapGet] at h
    by_cases hk : k1 = k
    · rw [if_pos hk] at h
      cases h
    · rw [if_neg hk] at h
      rw [show mapSet ((k1, v1) :: rest) k v = (k1, v1) :: mapSet rest k v by
        simp [mapSet, hk]]
      rw [List.countP_cons, List.countP_cons, ih h]
      omega

/-- With distinct keys, a stored pair is what lookup returns. -/
lemma mapGet_of_mem_nodup {m : List (FsPath × CopyStatus)}
    {kv : FsPath × CopyStatus} (hm : kv ∈ m)
    (hnd : (m.map Prod.fst).Nodup) : mapGet m kv.1 = some kv.2 := by
  induction m with
  | nil => cases hm
  | cons kv2 rest ih =>
    obtain ⟨k1, v1⟩ := kv2
    rcases List.mem_cons.1 hm with h | h
    · cases h
      rw [mapGet, if_pos rfl]
    · rw [mapGet]
      have hk : k1 ≠ kv.1 := by
        intro he
        have : kv.1 ∈ rest.map Prod.fst := List.mem_map.2 ⟨kv, h, rfl⟩
        rw [← he] at this
        exact (List.nodup_cons.1 hnd).1 this
      rw [if_neg hk]
      exact ih h (List.nodup_cons.1 hnd).2

lemma mapGet_some_mem_keys {m : List (FsPath × CopyStatus)} {k : FsPath}
    {v : CopyStatus} (h : mapGet m k = some v) : k ∈ m.map Prod.fst := by
  by_contra hc
  rw [← mapGet_none_iff] at hc
  rw [h] at hc
  cases hc

/-- The invariant the handler maintains: every key is a tracked file, the
keys are distinct, and completedFiles counts the files whose recorded
percent is 1. -/
def StInv (files : List FsPath) (st : ProgressState) : Prop :=
  (∀ kv ∈ st.copyStatus, kv.1 ∈ files) ∧
  (st.copyStatus.map Prod.fst).Nodup ∧
  st.completedFiles = st.copyStatus.countP (fun kv => decide (kv.2.percent = 1))

lemma handler_StInv {tf : Nat} {files : List FsPath} {st : ProgressState}
    {t : Tick} (hI : StInv files st) (hsrc : t.src ∈ files)
    (hp1 : t.percent ≤ 1) (hle : statusLE (getStatus st t.src) t.status) :
    StInv files (fileProgressHandler tf st t).1 := by
  by_cases h : getStatus st t.src = t.status
  · rw [handler_noop h]
    exact hI
  · rw [handler_change h]
    obtain ⟨hmem, hnd, hcount⟩ := hI
    refine ⟨?_, ?_, ?_⟩
    · intro kv hkv
      rcases mapSet_mem hkv with hkv | hkv
      · exact hmem kv hkv
      · rw [hkv]
        exact hsrc
    · show ((mapSet st.copyStatus t.src t.status).map Prod.fst).Nodup
      cases hget : mapGet st.copyStatus t.src with
      | some v0 => rw [mapSet_keys_of_some hget]; exact hnd
      | none =>
        rw [mapSet_keys_of_none hget, ← List.concat_eq_append]
        exact List.Nodup.concat (mapGet_none_iff.1 hget) hnd
    · show (if t.percent = 1 ∧ (getStatus st t.src).percent ≠ 1 then
          st.completedFiles + 1 else st.completedFiles) =
        (mapSet st.copyStatus t.src t.status).countP
          (fun kv => decide (kv.2.percent = 1))
      cases hget : mapGet st.copyStatus t.src with
      | none =>
        have hst : getStatus st t.src = ⟨0, 0⟩ := by
          unfold getStatus
          rw [hget]
          rfl
        rw [countP_mapSet_none
          (fun kv => decide (kv.2.percent = 1)) hget, ← hcount, hst]
        by_cases hpt : t.percent = 1
        · rw [if_pos ⟨hpt, by norm_num⟩]
          simp [Tick.status, hpt]
        · rw [if_neg (fun hc => hpt hc.1)]
          simp [Tick.status, hpt]
      | some v0 =>
        have hst : getStatus st t.src = v0 := by
          unfold getStatus
          rw [hget]
          rfl
        have hkey := @countP_mapSet_some st.copyStatus t.src t.status v0
          (fun kv => decide (kv.2.percent = 1)) hget
        simp only [] at hkey
        simp only [show t.status.percent = t.percent from rfl] at hkey
        rw [hst]
        by_cases hv0 : v0.percent = 1
        · have hpt : t.percent = 1 := by
            have h1 : (1 : ℚ) ≤ t.percent := by
              have h2 := hle.2
              rw [hst] at h2
              rw [← hv0]
              exact h2
            exact le_antisymm hp1 h1
          rw [if_neg (fun hc => hc.2 hv0)]
          simp only [hv0, hpt, decide_True, if_true] at hkey
          omega
        · by_cases hpt : t.percent = 1
          · rw [if_pos ⟨hpt, hv0⟩]
            simp only [hv0, hpt, decide_True, decide_False, if_true] at hkey
            simp at hkey
            omega
          · rw [if_neg (fun hc => hpt hc.1)]
            simp only [hv0, hpt, decide_False] at hkey
            simp at hkey
            omega

/-- Order on emitted snapshots: both counters are at most the later ones. -/
def aggLE (a b : AggregateProgress) : Prop :=
  a.completedFiles ≤ b.completedFiles ∧ a.completedSize ≤ b.completedSize

/-- The final recorded status of a file is the status of its last tick,
or the initial one when it had no tick. -/
lemma runProgress_getStatus (tf : Nat) :
    ∀ (ts : List Tick) (st : ProgressState) (f : FsPath),
    getStatus (runProgress tf st ts).1 f =
      ((ticksFor ts f).map Tick.status).getLastD (getStatus st f)
  | [], st, f => by
    show getStatus st f = _
    rw [ticksFor, List.filter_nil, List.map_nil, List.getLastD_nil]
  | t :: rest, st, f => by
    show getStatus (runProgress tf (fileProgressHandler tf st t).1 rest).1 f = _
    rw [runProgress_getStatus tf rest _ f, handler_getStatus]
    by_cases hf : t.src = f
    · rw [ticksFor_cons_self hf, List.map_cons, List.getLastD_cons, if_pos hf]
    · rw [ticksFor_cons_other hf, if_neg hf]

/-- Counters never decrease along a run, and the emitted snapshots are a
chain in both counters, all bounded below by the starting counters. -/
lemma runProgress_mono (tf : Nat) :
    ∀ (ts : List Tick) (st : ProgressState), Compat st ts →
    (st.completedFiles ≤ (runProgress tf st ts).1.completedFiles ∧
      st.completedSize ≤ (runProgress tf st ts).1.completedSize) ∧
    List.Chain' aggLE (runProgress tf st ts).2 ∧
    (∀ a ∈ (runProgress tf st ts).2,
      st.completedFiles ≤ a.completedFiles ∧ st.completedSize ≤ a.completedSize)
  | [], st, _ => ⟨⟨le_refl _, le_refl _⟩, List.chain'_nil, by intro a ha; cases ha⟩
  | t :: rest, st, h => by
    have hmono := @handler_mono tf st t (compat_head h)
    have ih := runProgress_mono tf rest (fileProgressHandler tf st t).1
      (compat_step h)
    have hg1 : (runProgress tf st (t :: rest)).1 =
      (runProgress tf (fileProgressHandler tf st t).1 rest).1 := rfl
    have hg2 : (runProgress tf st (t :: rest)).2 =
      (fileProgressHandler tf st t).2.toList ++
        (runProgress tf (fileProgressHandler tf st t).1 rest).2 := rfl
    rw [hg1, hg2]
    refine ⟨⟨le_trans hmono.1 ih.1.1, le_trans hmono.2 ih.1.2⟩, ?_, ?_⟩
    · cases hstep : (fileProgressHandler tf st t).2 with
      | none => simpa using ih.2.1
      | some a =>
        have he := handler_emit hstep
        simp only [Option.toList_some, List.singleton_append]
        rw [List.chain'_cons']
        refine ⟨?_, ih.2.1⟩
        intro b hb
        have hb2 := ih.2.2 b (List.mem_of_mem_head? hb)
        exact ⟨by rw [he.1]; exact hb2.1, by rw [he.2.1]; exact hb2.2⟩
    · intro a ha
      cases hstep : (fileProgressHandler tf st t).2 with
      | none =>
        rw [hstep] at ha
        simp only [Option.toList_none, List.nil_append] at ha
        have hb2 := ih.2.2 a ha
        exact ⟨le_trans hmono.1 hb2.1, le_trans hmono.2 hb2.2⟩
      | some b =>
        rw [hstep] at ha
        simp only [Option.toList_some, List.singleton_append,
          List.mem_cons] at ha
        rcases ha with ha | ha
        · subst ha
          have he := handler_emit hstep
          exact ⟨by rw [he.1]; exact hmono.1, by rw [he.2.1]; exact hmono.2⟩
        · have hb2 := ih.2.2 a ha
          exact ⟨le_trans hmono.1 hb2.1, le_trans hmono.2 hb2.2⟩

lemma getLast?_cons_eq {α : Type} {l : List α} {b : α}
    (hb : l.getLast? = some b) (a : α) : (a :: l).getLast? = some b := by
  cases l with
  | nil => cases hb
  | cons c l2 =>
    rw [List.getLast?_cons_cons]
    exact hb

/-- Either a run emits nothing and leaves the state alone, or its last
emitted snapshot carries the fields of the final state. -/
lemma runProgress_last (tf : Nat) :
    ∀ (ts : List Tick) (st : ProgressState),
    ((runProgress tf st ts).2 = [] ∧ (runProgress tf st ts).1 = st) ∨
    (∃ a, (runProgress tf st ts).2.getLast? = some a ∧
      a.completedFiles = (runProgress tf st ts).1.completedFiles ∧
      a.completedSize = (runProgress tf st ts).1.completedSize ∧
      a.totalFiles = tf ∧
      a.percent =
        (((runProgress tf st ts).1.completedFiles : ℕ) : ℚ) / (tf : ℚ))
  | [], st => Or.inl ⟨rfl, rfl⟩
  | t :: rest, st => by
    have ih := runProgress_last tf rest (fileProgressHandler tf st t).1
    have hg1 : (runProgress tf st (t :: rest)).1 =
      (runProgress tf (fileProgressHandler tf st t).1 rest).1 := rfl
    have hg2 : (runProgress tf st (t :: rest)).2 =
      (fileProgressHandler tf st t).2.toList ++
        (runProgress tf (fileProgressHandler tf st t).1 rest).2 := rfl
    rw [hg1, hg2]
    cases hstep : (fileProgressHandler tf st t).2 with
    | none =>
      have hs := handler_none_state hstep
      rcases ih with ⟨hnil, hst⟩ | ⟨a, ha, h1, h2, h3, h4⟩
      · left
        refine ⟨?_, hst.trans hs⟩
        rw [hnil]
        rfl
      · right
        exact ⟨a, by simpa using ha, h1, h2, h3, h4⟩
    | some a =>
      right
      rcases ih with ⟨hnil, hst⟩ | ⟨b, hb, h1, h2, h3, h4⟩
      · have he := handler_emit hstep
        refine ⟨a, ?_, ?_, ?_, he.2.2.1, ?_⟩
        · rw [hnil]
          rfl
        · rw [hst]
          exact he.1
        · rw [hst]
          exact he.2.1
        · rw [hst]
          exact he.2.2.2
      · exact ⟨b, by
          simp only [Option.toList_some, List.singleton_append]
          exact getLast?_cons_eq hb a, h1, h2, h3, h4⟩

/-- The handler invariant survives a whole run. -/
lemma runProgress_StInv (tf : Nat) (files : List FsPath) :
    ∀ (ts : List Tick) (st : ProgressState),
    StInv files st → Compat st ts →
    (∀ t ∈ ts, t.src ∈ files ∧ t.percent ≤ 1) →
    StInv files (runProgress tf st ts).1
  | [], _, hI, _, _ => hI
  | t :: rest, st, hI, hc, hv => by
    show StInv files (runProgress tf (fileProgressHandler tf st t).1 rest).1
    exact runProgress_StInv tf files rest _
      (handler_StInv hI (hv t (by simp)).1 (hv t (by simp)).2 (compat_head hc))
      (compat_step hc) (fun t2 ht2 => hv t2 (by simp [ht2]))

lemma chain_head_le_last :
    ∀ (l : List CopyStatus) (c : CopyStatus),
    List.Chain' statusLE (c :: l) → statusLE c (l.getLastD c)
  | [], c, _ => statusLE_refl c
  | a :: l, c, h => by
    rw [List.getLastD_cons]
    have h2 := List.chain'_cons.1 h
    exact statusLE_trans h2.1 (chain_head_le_last l a h2.2)

lemma chain_mem_le_last :
    ∀ (l : List CopyStatus) (c x : CopyStatus),
    List.Chain' statusLE (c :: l) → x ∈ l → statusLE x (l.getLastD c)
  | [], _, _, _, hx => absurd hx (List.not_mem_nil _)
  | a :: l, c, x, h, hx => by
    rw [List.getLastD_cons]
    have h2 := List.chain'_cons.1 h
    rcases List.mem_cons.1 hx with hx | hx
    · subst hx
      exact chain_head_le_last l x h2.2
    · exact chain_mem_le_last l a x h2.2 hx

lemma getLastD_mem {α : Type} :
    ∀ (l : List α) (d : α), l ≠ [] → l.getLastD d ∈ l
  | [], _, h => absurd rfl h
  | a :: l, d, _ => by
    rw [List.getLastD_cons]
    by_cases hl : l = []
    · subst hl
      simp
    · exact List.mem_cons.2 (Or.inr (getLastD_mem l a hl))

/-- A non-decreasing run of statuses starting below a given bound. -/
def statusChain : CopyStatus → List CopyStatus → Prop
  | _, [] => True
  | c, x :: l => statusLE c x ∧ statusChain x l

def statusChainDecAux : (c : CopyStatus) → (l : List CopyStatus) →
    Decidable (statusChain c l)
  | _, [] => .isTrue trivial
  | _, x :: l =>
    haveI : Decidable (statusChain x l) := statusChainDecAux x l
    inferInstanceAs (Decidable (_ ∧ _))

instance (c : CopyStatus) (l : List CopyStatus) :
    Decidable (statusChain c l) := statusChainDecAux c l

lemma statusChain_iff_chain' :
    ∀ (c : CopyStatus) (l : List CopyStatus),
    statusChain c l ↔ List.Chain' statusLE (c :: l)
  | _, [] => by simp [statusChain]
  | c, x :: l => by
    rw [List.chain'_cons, statusChain, statusChain_iff_chain' x l]

/-- A valid raw tick sequence for a set of tracked files: every tick
belongs to a tracked file and reports a percent at most 1; the per-file
tick subsequences are non-decreasing starting from the zero status; and
every tracked file eventually receives a percent-1 tick. -/
def ValidTicks (files : List FsPath) (ts : List Tick) : Prop :=
  (∀ t ∈ ts, t.src ∈ files ∧ t.percent ≤ 1) ∧
  (∀ f ∈ files, statusChain ⟨0, 0⟩ ((ticksFor ts f).map Tick.status)) ∧
  (∀ f ∈ files, ∃ t ∈ ts, t.src = f ∧ t.percent = 1)

instance (files : List FsPath) (ts : List Tick) :
    Decidable (ValidTicks files ts) :=
  inferInstanceAs (Decidable (_ ∧ _ ∧ _))

lemma validTicks_compat {files : List FsPath} {ts : List Tick}
    (hv : ValidTicks files ts) : Compat initialProgress ts := by
  intro f
  have hg : getStatus initialProgress f = ⟨0, 0⟩ := rfl
  rw [hg]
  by_cases hf : f ∈ files
  · exact (statusChain_iff_chain' _ _).1 (hv.2.1 f hf)
  · have hnil : ticksFor ts f = [] := by
      unfold ticksFor
      rw [List.filter_eq_nil_iff]
      intro t ht
      simp only [beq_iff_eq]
      intro he
      exact hf (he ▸ (hv.1 t ht).1)
    rw [hnil]
    simp

/-- After a valid complete run each tracked file is recorded with
percent 1. -/
lemma final_status_one {files : List FsPath} {ts : List Tick}
    (hv : ValidTicks files ts) (tf : Nat) :
    ∀ f ∈ files, ∃ v,
      mapGet (runProgress tf initialProgress ts).1.copyStatus f = some v ∧
      v.percent = 1 := by
  intro f hf
  have hgs := runProgress_getStatus tf ts initialProgress f
  have hinit : getStatus initialProgress f = ⟨0, 0⟩ := rfl
  rw [hinit] at hgs
  obtain ⟨t, ht, hsrc, hp⟩ := hv.2.2 f hf
  have htf : t ∈ ticksFor ts f := by
    unfold ticksFor
    rw [List.mem_filter]
    exact ⟨ht, by simp [hsrc]⟩
  have hmem : t.status ∈ (ticksFor ts f).map Tick.status :=
    List.mem_map.2 ⟨t, htf, rfl⟩
  have hle := chain_mem_le_last _ _ _
    ((statusChain_iff_chain' _ _).1 (hv.2.1 f hf)) hmem
  have hub : (((ticksFor ts f).map Tick.status).getLastD ⟨0, 0⟩).percent ≤ 1 := by
    have hne : (ticksFor ts f).map Tick.status ≠ [] := by
      intro hc
      rw [hc] at hmem
      cases hmem
    obtain ⟨t2, ht2, he⟩ := List.mem_map.1 (getLastD_mem _ (⟨0, 0⟩ : CopyStatus) hne)
    rw [← he]
    exact (hv.1 t2 (List.mem_of_mem_filter ht2)).2
  have hlb : (1 : ℚ) ≤
      (((ticksFor ts f).map Tick.status).getLastD ⟨0, 0⟩).percent := by
    have h2 := hle.2
    rw [show t.status.percent = t.percent from rfl, hp] at h2
    exact h2
  have hpct : (((ticksFor ts f).map Tick.status).getLastD ⟨0, 0⟩).percent = 1 :=
    le_antisymm hub hlb
  cases hmg : mapGet (runProgress tf initialProgress ts).1.copyStatus f with
  | none =>
    exfalso
    have hzero : getStatus (runProgress tf initialProgress ts).1 f = ⟨0, 0⟩ := by
      unfold getStatus
      rw [hmg]
      rfl
    rw [hzero] at hgs
    have h0 : (0 : ℚ) = 1 := by
      have := congrArg CopyStatus.percent hgs
      rw [hpct] at this
      exact this
    norm_num at h0
  | some v =>
    refine ⟨v, rfl, ?_⟩
    have hgv : getStatus (runProgress tf initialProgress ts).1 f = v := by
      unfold getStatus
      rw [hmg]
      rfl
    rw [hgv] at hgs
    rw [hgs]
    exact hpct

/-- After a valid complete run the completedFiles counter equals the
number of tracked files. -/
lemma final_completedFiles {files : List FsPath} {ts : List Tick}
    (hnd : files.Nodup) (hv : ValidTicks files ts) (tf : Nat) :
    (runProgress tf initialProgress ts).1.completedFiles = files.length := by
  have hInit : StInv files initialProgress :=
    ⟨(by intro kv hkv; cases hkv), (by simp [initialProgress]), rfl⟩
  obtain ⟨hmem, hndk, hcount⟩ :=
    runProgress_StInv tf files ts initialProgress hInit
      (validTicks_compat hv) hv.1
  have hall : ∀ kv ∈ (runProgress tf initialProgress ts).1.copyStatus,
      (fun kv : FsPath × CopyStatus => decide (kv.2.percent = 1)) kv = true := by
    intro kv hkv
    obtain ⟨v, hvg, hv1⟩ := final_status_one hv tf kv.1 (hmem kv hkv)
    have hget := mapGet_of_mem_nodup hkv hndk
    rw [hget] at hvg
    obtain ⟨rfl⟩ : kv.2 = v := Option.some.inj hvg
    simp [hv1]
  have hlen : (runProgress tf initialProgress ts).1.copyStatus.countP
      (fun kv => decide (kv.2.percent = 1)) =
      (runProgress tf initialProgress ts).1.copyStatus.length :=
    List.countP_eq_length.2 hall
  have hsub1 : (runProgress tf initialProgress ts).1.copyStatus.map Prod.fst ⊆
      files := by
    intro x hx
    obtain ⟨kv, hkv, he⟩ := List.mem_map.1 hx
    rw [← he]
    exact hmem kv hkv
  have hsub2 : files ⊆
      (runProgress tf initialProgress ts).1.copyStatus.map Prod.fst := by
    intro f hf
    obtain ⟨v, hvg, _⟩ := final_status_one hv tf f hf
    exact mapGet_some_mem_keys hvg
  have hlen2 : ((runProgress tf initialProgress ts).1.copyStatus.map
      Prod.fst).length = files.length :=
    Nat.le_antisymm (List.subperm_of_subset hndk hsub1).length_le
      (List.subperm_of_subset hnd hsub2).length_le
  rw [List.length_map] at hlen2
  rw [hcount, hlen, hlen2]

/-- C3: for every valid raw tick sequence (duplicates and arbitrary
interleaving between files allowed), the emitted completedFiles values
and the emitted completedSize values are each non-decreasing, and the
final emitted snapshot reports completedFiles equal to totalFiles and
percent 1. -/
theorem C3_progress_monotone_and_final (files : List FsPath) (ts : List Tick)
    (hnd : files.Nodup) (hne : files ≠ []) (hv : ValidTicks files ts) :
    List.Chain' (· ≤ ·)
      (((runProgress files.length initialProgress ts).2).map
        AggregateProgress.completedFiles) ∧
    List.Chain' (· ≤ ·)
      (((runProgress files.length initialProgress ts).2).map
        AggregateProgress.completedSize) ∧
    ∃ last,
      ((runProgress files.length initialProgress ts).2).getLast? = some last ∧
      last.totalFiles = files.length ∧
      last.completedFiles = files.length ∧
      last.percent = 1 := by
  have hm := runProgress_mono files.length ts initialProgress
    (validTicks_compat hv)
  have hcf := final_completedFiles hnd hv files.length
  refine ⟨?_, ?_, ?_⟩
  · rw [List.chain'_map]
    exact hm.2.1.imp (fun a b hab => hab.1)
  · rw [List.chain'_map]
    exact hm.2.1.imp (fun a b hab => hab.2)
  · rcases runProgress_last files.length ts initialProgress with
      ⟨_, hst⟩ | ⟨a, ha, h1, _, h3, h4⟩
    · exfalso
      have h0 : files.length = 0 := by
        rw [← hcf, hst]
        rfl
      exact hne (List.length_eq_zero.1 h0)
    · refine ⟨a, ha, h3, by rw [h1, hcf], ?_⟩
      rw [h4, hcf, div_self]
      exact Nat.cast_ne_zero.2 (fun h0 => hne (List.length_eq_zero.1 h0))

/-- C3 witness: one file /w/a receiving a (0, 0) tick, a partial 2-byte
tick and a final 4-byte percent-1 tick forms a valid sequence, and the
conclusion holds for it. -/
theorem C3_progress_monotone_and_final_witness :
    ValidTicks [⟨true, ["w", "a"]⟩]
      [⟨⟨true, ["w", "a"]⟩, 0, 0⟩, ⟨⟨true, ["w", "a"]⟩, 2, 0⟩,
        ⟨⟨true, ["w", "a"]⟩, 4, 1⟩] ∧
    (List.Chain' (· ≤ ·)
      (((runProgress 1 initialProgress
        [⟨⟨true, ["w", "a"]⟩, 0, 0⟩, ⟨⟨true, ["w", "a"]⟩, 2, 0⟩,
          ⟨⟨true, ["w", "a"]⟩, 4, 1⟩]).2).map
        AggregateProgress.completedFiles) ∧
    List.Chain' (· ≤ ·)
      (((runProgress 1 initialProgress
        [⟨⟨true, ["w", "a"]⟩, 0, 0⟩, ⟨⟨true, ["w", "a"]⟩, 2, 0⟩,
          ⟨⟨true, ["w", "a"]⟩, 4, 1⟩]).2).map
        AggregateProgress.completedSize) ∧
    ∃ last,
      ((runProgress 1 initialProgress
        [⟨⟨true, ["w", "a"]⟩, 0, 0⟩, ⟨⟨true, ["w", "a"]⟩, 2, 0⟩,
          ⟨⟨true, ["w", "a"]⟩, 4, 1⟩]).2).getLast? = some last ∧
      last.totalFiles = 1 ∧
      last.completedFiles = 1 ∧
      last.percent = 1) :=
  ⟨by decide,
    C3_progress_monotone_and_final [⟨true, ["w", "a"]⟩]
      [⟨⟨true, ["w", "a"]⟩, 0, 0⟩, ⟨⟨true, ["w", "a"]⟩, 2, 0⟩,
        ⟨⟨true, ["w", "a"]⟩, 4, 1⟩]
      (by decide) (by decide) (by decide)⟩

/-- The proposition that an operation outcome is the sourceNotFound
error. -/
def isSourceNotFoundError :
    Except CpyError (List FsPath × List AggregateProgress) → Prop
  | .error (.sourceNotFound _) => True
  | _ => False

instance (r : Except CpyError (List FsPath × List AggregateProgress)) :
    Decidable (isSourceNotFoundError r) :=
  match r with
  | .error (.sourceNotFound _) => Decidable.isTrue trivial
  | .error .missingArgument => Decidable.isFalse (fun h => False.elim h)
  | .error .copyIncomplete => Decidable.isFalse (fun h => False.elim h)
  | .ok _ => Decidable.isFalse (fun h => False.elim h)

lemma pMapRun_nil (f : Entry → FsPath) (schedule : List Nat) :
    pMapRun f [] schedule = [] := by
  unfold pMapRun
  show schedule.foldl _ [] = []
  induction schedule with
  | nil => rfl
  | cons i rest ih =>
    rw [List.foldl_cons]
    show rest.foldl _ (List.set [] i _) = []
    rw [List.set_nil]
    exact ih

/-- The run of a single wildcarded pattern with no matches: success with
no copies, the one terminal empty snapshot, and whatever the tick stream
adds (nothing, when there are no copies to tick). -/
lemma cpy_single_empty_wildcard (p : GlobPattern) (destination : FsPath)
    (options : Options) (ticks : List Tick) (schedule : List Nat)
    (hm : p.hasMagic = true) (hempty : p.getMatches = [])
    (hdest : ¬(destination.absolute = false ∧ destination.segs = [])) :
    cpy [p] destination options ticks schedule =
      .ok ([], ⟨0, 1, 0, 0⟩ :: (runProgress 0 initialProgress ticks).2) := by
  have hcoll : collectEntries options.cwd [p] = .ok [] := by
    unfold collectEntries
    rw [if_neg (by simp [hm]), hempty]
    rfl
  unfold cpy
  rw [if_neg (by simp [hdest]), hcoll]
  cases hf : options.filter with
  | none =>
    show (match collectResults
        (pMapRun (entryDestination destination options) [] schedule) with
      | some paths =>
        Except.ok (paths, ⟨0, 1, 0, 0⟩ :: (runProgress 0 initialProgress ticks).2)
      | none => Except.error CpyError.copyIncomplete) =
      Except.ok ([], ⟨0, 1, 0, 0⟩ :: (runProgress 0 initialProgress ticks).2)
    rw [pMapRun_nil]
    rfl
  | some keep =>
    show (match collectResults
        (pMapRun (entryDestination destination options) [] schedule) with
      | some paths =>
        Except.ok (paths, ⟨0, 1, 0, 0⟩ :: (runProgress 0 initialProgress ticks).2)
      | none => Except.error CpyError.copyIncomplete) =
      Except.ok ([], ⟨0, 1, 0, 0⟩ :: (runProgress 0 initialProgress ticks).2)
    rw [pMapRun_nil]
    rfl

/-- The run of a single literal pattern with no matches: the
sourceNotFound failure, before any copy result is produced. -/
lemma cpy_single_empty_literal (p : GlobPattern) (destination : FsPath)
    (options : Options) (ticks : List Tick) (schedule : List Nat)
    (hm : p.hasMagic = false) (hempty : p.getMatches = [])
    (hdest : ¬(destination.absolute = false ∧ destination.segs = [])) :
    cpy [p] destination options ticks schedule =
      .error (.sourceNotFound p.originalPath) := by
  have hcoll : collectEntries options.cwd [p] =
      .error (.sourceNotFound p.originalPath) := by
    unfold collectEntries
    rw [if_pos ⟨hempty, hm⟩]
  unfold cpy
  rw [if_neg (by simp [hdest]), hcoll]

/-- C4: for a pattern whose resolution yields zero matches, the operation
fails with sourceNotFound exactly when the pattern is not wildcarded; a
wildcarded pattern with zero matches is not an error. The failure is
produced during resolution, before any copy result exists. -/
theorem C4_source_not_found_iff_literal (p : GlobPattern)
    (destination : FsPath) (options : Options) (ticks : List Tick)
    (schedule : List Nat) (hempty : p.getMatches = [])
    (hdest : ¬(destination.absolute = false ∧ destination.segs = [])) :
    (isSourceNotFoundError (cpy [p] destination options ticks schedule) ↔
      p.hasMagic = false) ∧
    (p.hasMagic = true →
      ∃ r, cpy [p] destination options ticks schedule = .ok r) := by
  cases hm : p.hasMagic with
  | false =>
    rw [cpy_single_empty_literal p destination options ticks schedule hm
      hempty hdest]
    exact ⟨by simp [isSourceNotFoundError], by intro h; cases h⟩
  | true =>
    rw [cpy_single_empty_wildcard p destination options ticks schedule hm
      hempty hdest]
    refine ⟨?_, fun _ => ⟨_, rfl⟩⟩
    simp only [isSourceNotFoundError]
    constructor
    · intro h
      cases h
    · intro h
      cases h

/-- C4 witness: the literal pattern missing.txt with no matches fails
with sourceNotFound, and the wildcarded pattern src/*.md with no matches
does not. -/
theorem C4_source_not_found_iff_literal_witness :
    isSourceNotFoundError
      (cpy [⟨"missing.txt", false, ⟨true, ["w"]⟩, []⟩] ⟨false, ["out"]⟩
        ⟨1, true, false, ⟨true, ["w"]⟩, false, none, .none⟩ [] []) ∧
    ¬isSourceNotFoundError
      (cpy [⟨"src/*.md", true, ⟨true, ["w", "src"]⟩, []⟩] ⟨false, ["out"]⟩
        ⟨1, true, false, ⟨true, ["w"]⟩, false, none, .none⟩ [] []) := by
  have h1 := C4_source_not_found_iff_literal
    ⟨"missing.txt", false, ⟨true, ["w"]⟩, []⟩ ⟨false, ["out"]⟩
    ⟨1, true, false, ⟨true, ["w"]⟩, false, none, .none⟩ [] [] rfl (by decide)
  have h2 := C4_source_not_found_iff_literal
    ⟨"src/*.md", true, ⟨true, ["w", "src"]⟩, []⟩ ⟨false, ["out"]⟩
    ⟨1, true, false, ⟨true, ["w"]⟩, false, none, .none⟩ [] [] rfl (by decide)
  constructor
  · exact h1.1.2 rfl
  · intro hc
    exact Bool.noConfusion (h2.1.1 hc)

/-- C8: an operation over one wildcarded pattern matching zero files
succeeds with the empty result list and emits exactly one aggregate
snapshot, the terminal empty one with totalFiles 0, percent 1,
completedFiles 0, completedSize 0. With no entries no copy runs, so the
byte-copy collaborator delivers no ticks. -/
theorem C8_empty_wildcard_success (p : GlobPattern) (destination : FsPath)
    (options : Options) (schedule : List Nat)
    (hm : p.hasMagic = true) (hempty : p.getMatches = [])
    (hdest : ¬(destination.absolute = false ∧ destination.segs = [])) :
    cpy [p] destination options [] schedule =
      .ok ([], [⟨0, 1, 0, 0⟩]) := by
  rw [cpy_single_empty_wildcard p destination options [] schedule hm hempty
    hdest]
  rfl

/-- C8 witness: the pattern src/*.md with no matches resolves to the
empty result and a single terminal snapshot. -/
theorem C8_empty_wildcard_success_witness :
    cpy [⟨"src/*.md", true, ⟨true, ["w", "src"]⟩, []⟩] ⟨false, ["out"]⟩
      ⟨1, true, false, ⟨true, ["w"]⟩, false, none, .none⟩ [] [3] =
      .ok ([], [⟨0, 1, 0, 0⟩]) :=
  C8_empty_wildcard_success _ _ _ [3] rfl rfl (by decide)

/-- Index j of the task array after part of the schedule ran: written
once some completion for j occurred, untouched otherwise. -/
lemma pMapRun_foldl_get (f : Entry → FsPath) (entries : List Entry) :
    ∀ (schedule : List Nat) (arr : List (Option FsPath)) (j : Nat),
    (schedule.foldl (fun arr i => arr.set i ((entries[i]?).map f)) arr)[j]? =
      if j ∈ schedule then
        (if j < arr.length then some ((entries[j]?).map f) else none)
      else arr[j]?
  | [], arr, j => by simp
  | i :: rest, arr, j => by
    rw [List.foldl_cons, pMapRun_foldl_get f entries rest _ j, List.length_set]
    by_cases hjr : j ∈ rest
    · rw [if_pos hjr, if_pos (List.mem_cons.2 (Or.inr hjr))]
    · rw [if_neg hjr]
      by_cases hij : i = j
      · subst hij
        rw [if_pos (List.mem_cons.2 (Or.inl rfl)), List.getElem?_set,
          if_pos rfl]
      · rw [if_neg (by
          intro hc
          rcases List.mem_cons.1 hc with hc | hc
          · exact hij hc.symm
          · exact hjr hc)]
        rw [List.getElem?_set, if_neg hij]

/-- Whatever order the copies complete in, a schedule that completes
every task fills the result array with the per-entry results in entry
order. -/
lemma pMapRun_perm (f : Entry → FsPath) (entries : List Entry)
    (schedule : List Nat) (h : schedule.Perm (List.range entries.length)) :
    pMapRun f entries schedule = entries.map (fun e => some (f e)) := by
  apply List.ext_getElem?
  intro j
  unfold pMapRun
  rw [pMapRun_foldl_get, List.length_replicate]
  have hmem : j ∈ schedule ↔ j < entries.length := by
    rw [h.mem_iff, List.mem_range]
  by_cases hj : j < entries.length
  · rw [if_pos (hmem.2 hj), if_pos hj, List.getElem?_map,
      List.getElem?_eq_getElem hj]
    rfl
  · rw [if_neg (fun hc => hj (hmem.1 hc)),
      List.getElem?_eq_none (by simpa using Nat.le_of_not_lt hj),
      List.getElem?_eq_none (by simp [Nat.le_of_not_lt hj])]

lemma collectResults_map_some (g : Entry → FsPath) :
    ∀ (entries : List Entry),
    collectResults (entries.map (fun e => some (g e))) = some (entries.map g)
  | [] => rfl
  | e :: rest => by
    show (collectResults (rest.map fun e2 => some (g e2))).map (g e :: ·) = _
    rw [collectResults_map_some g rest]
    rfl

/-- C9: when every copy succeeds, the operation resolves with the final
destination paths in the order the entries were produced from the
patterns (pattern order, then match order, filter applied in order), for
every completion schedule: the result does not depend on the order the
concurrent copies finish in. -/
theorem C9_result_order (source : List GlobPattern) (destination : FsPath)
    (options : Options) (ticks : List Tick) (schedule : List Nat)
    (collected entries : List Entry)
    (hsrc : source ≠ [])
    (hdest : ¬(destination.absolute = false ∧ destination.segs = []))
    (hcoll : collectEntries options.cwd source = .ok collected)
    (hentries : entries = applyFilter options.filter collected)
    (hsched : schedule.Perm (List.range entries.length)) :
    cpy source destination options ticks schedule =
      .ok (entries.map (entryDestination destination options),
        (if entries = [] then [⟨0, 1, 0, 0⟩] else []) ++
          (runProgress entries.length initialProgress ticks).2) := by
  unfold cpy
  rw [if_neg (by simp [hsrc, hdest]), hcoll]
  show (let entries2 := applyFilter options.filter collected
    let preEvents : List AggregateProgress :=
      if entries2 = [] then [⟨0, 1, 0, 0⟩] else []
    let tickEvents := (runProgress entries2.length initialProgress ticks).2
    match collectResults
        (pMapRun (entryDestination destination options) entries2 schedule) with
    | some paths => Except.ok (paths, preEvents ++ tickEvents)
    | none => Except.error CpyError.copyIncomplete) = _
  rw [← hentries]
  show (match collectResults
      (pMapRun (entryDestination destination options) entries schedule) with
    | some paths =>
      Except.ok (paths,
        (if entries = [] then [(⟨0, 1, 0, 0⟩ : AggregateProgress)] else []) ++
          (runProgress entries.length initialProgress ticks).2)
    | none => Except.error CpyError.copyIncomplete) = _
  rw [pMapRun_perm _ _ _ hsched, collectResults_map_some]

/-- C9 witness: two entries from one wildcarded pattern, with the second
copy finishing before the first (schedule [1, 0]); the result still lists
the destinations in entry order. -/
theorem C9_result_order_witness :
    cpy
      [⟨"src/*.md", true, ⟨true, ["w", "src"]⟩,
        [⟨true, ["w", "src", "x.md"]⟩, ⟨true, ["w", "src", "y.md"]⟩]⟩]
      ⟨true, ["dest"]⟩
      ⟨2, true, false, ⟨true, ["w"]⟩, false, none, .none⟩ [] [1, 0] =
      .ok ([⟨true, ["dest", "x.md"]⟩, ⟨true, ["dest", "y.md"]⟩],
        (runProgress 2 initialProgress []).2) := by
  have h := C9_result_order
    [⟨"src/*.md", true, ⟨true, ["w", "src"]⟩,
      [⟨true, ["w", "src", "x.md"]⟩, ⟨true, ["w", "src", "y.md"]⟩]⟩]
    ⟨true, ["dest"]⟩
    ⟨2, true, false, ⟨true, ["w"]⟩, false, none, .none⟩ [] [1, 0]
    [⟨⟨true, ["w", "src", "x.md"]⟩, ⟨false, ["src", "x.md"]⟩,
      ⟨"src/*.md", true, ⟨true, ["w", "src"]⟩,
        [⟨true, ["w", "src", "x.md"]⟩, ⟨true, ["w", "src", "y.md"]⟩]⟩⟩,
     ⟨⟨true, ["w", "src", "y.md"]⟩, ⟨false, ["src", "y.md"]⟩,
      ⟨"src/*.md", true, ⟨true, ["w", "src"]⟩,
        [⟨true, ["w", "src", "x.md"]⟩, ⟨true, ["w", "src", "y.md"]⟩]⟩⟩]
    [⟨⟨true, ["w", "src", "x.md"]⟩, ⟨false, ["src", "x.md"]⟩,
      ⟨"src/*.md", true, ⟨true, ["w", "src"]⟩,
        [⟨true, ["w", "src", "x.md"]⟩, ⟨true, ["w", "src", "y.md"]⟩]⟩⟩,
     ⟨⟨true, ["w", "src", "y.md"]⟩, ⟨false, ["src", "y.md"]⟩,
      ⟨"src/*.md", true, ⟨true, ["w", "src"]⟩,
        [⟨true, ["w", "src", "x.md"]⟩, ⟨true, ["w", "src", "y.md"]⟩]⟩⟩]
    (by decide) (by decide) rfl rfl (by decide)
  rw [h]
  rfl

end Cpy
